import Mathlib

/-!
Verification development for the Khazix-Skills repository (skill-manager,
github-to-skills, skill-evolution-manager scripts).

The Python sources are shallowly embedded:
* strings manipulated by the scripts are modelled as List Char, so that
  splitting/joining admits equational reasoning;
* Python dicts (YAML frontmatter mappings) are association lists with
  CPython update semantics (replace-first-in-place, append new keys);
* the filesystem is an inductive tree of uniquely-named entries; a
  directory is its os.listdir view, a List of (name, entry) pairs;
* subprocess/network calls (git ls-remote, git clone) are oracles passed
  as function arguments; exceptions are Except / Option values.
-/

/-- Association-list lookup, first match wins; models Python dict lookup
(dict keys are unique, so first match is the only match). -/
def lookupL {α β : Type} [DecidableEq α] : List (α × β) → α → Option β
  | [], _ => none
  | (k, v) :: rest, key => if k = key then some v else lookupL rest key

/-- Replace the first binding of a key, or append a fresh binding at the end;
models CPython dict item assignment (existing keys keep their position,
new keys are appended in insertion order). -/
def setPair {α β : Type} [DecidableEq α] : List (α × β) → α → β → List (α × β)
  | [], key, v => [(key, v)]
  | (k, v0) :: rest, key, v =>
    if k = key then (key, v) :: rest else (k, v0) :: setPair rest key v

/-- Python dict.update: fold the update set over the existing mapping,
assigning each key of the update set in order. Models
existing_fm.update(new_metadata) in github_to_skill.update_frontmatter and
the single-key assignment in sync_skill.update_frontmatter_hash. -/
def dictUpdate {α β : Type} [DecidableEq α] (e u : List (α × β)) : List (α × β) :=
  u.foldl (fun acc kv => setPair acc kv.1 kv.2) e

/-- Python str.split driver: scan the character list left to right; whenever
the (non-empty) separator is a prefix of the remaining input, close the
current field and continue after the separator. The accumulator holds the
current field reversed. -/
def splitOnAux (sep : List Char) : List Char → List Char → List (List Char)
  | [], acc => [acc.reverse]
  | c :: rest, acc =>
    if h : sep ≠ [] ∧ sep.isPrefixOf (c :: rest) then
      acc.reverse :: splitOnAux sep (List.drop sep.length (c :: rest)) []
    else
      splitOnAux sep rest (c :: acc)
termination_by cs _ => cs.length
decreasing_by
  · simp only [List.length_drop]
    have h1 : 0 < sep.length := List.length_pos.mpr h.1
    simp only [List.length_cons]
    omega
  · simp only [List.length_cons]
    omega

/-- Fuel-driven twin of splitOnAux: identical case structure, recursion on an
explicit fuel counter so the kernel can evaluate it on concrete inputs. With
fuel at least the input length it agrees with splitOnAux (theorem
splitOnFuelAux_eq below). -/
def splitOnFuelAux (sep : List Char) : Nat → List Char → List Char → List (List Char)
  | _, [], acc => [acc.reverse]
  | 0, cs, acc => [acc.reverse ++ cs]
  | fuel + 1, c :: rest, acc =>
    if sep ≠ [] ∧ sep.isPrefixOf (c :: rest) then
      acc.reverse :: splitOnFuelAux sep fuel (List.drop sep.length (c :: rest)) []
    else
      splitOnFuelAux sep fuel rest (c :: acc)

/-- Python content.split(sep) for a fixed non-empty separator string; the
input length is always enough fuel, so this equals the splitOnAux scanner. -/
def pySplit (sep cs : List Char) : List (List Char) := splitOnFuelAux sep cs.length cs []

/-- Python sep.join(parts). -/
def intercalateL (sep : List Char) : List (List Char) → List Char
  | [] => []
  | [x] => x
  | x :: y :: ys => x ++ sep ++ intercalateL sep (y :: ys)

/-- Python s.replace(pattern, repl): replace all non-overlapping
left-to-right occurrences. -/
def pyReplace (cs pattern repl : List Char) : List Char :=
  intercalateL repl (pySplit pattern cs)

/-- Python url.rstrip(slash): drop all trailing slash characters. -/
def rstripSlashes (cs : List Char) : List Char :=
  (cs.reverse.dropWhile (fun c => c = '/')).reverse

/-- Newline character. -/
def nlC : Char := '\n'

/-- Frontmatter delimiter string, the Python literal three dashes. -/
def dashesL : List Char := ['-', '-', '-']

/-- YAML key/value separator, colon followed by space. -/
def colonSpace : List Char := [':', ' ']

/-- Parse one YAML mapping line at its first ": " occurrence. Models the
behaviour of yaml.safe_load on a flat "key: value" scalar line. -/
def parseLine (line : List Char) : Option (List Char × List Char) :=
  let l := pySplit colonSpace line
  if 2 ≤ l.length then some (l.headI, intercalateL colonSpace l.tail) else none

/-- Parse a list of mapping lines; any malformed line fails the whole parse
(models a yaml.YAMLError exception). -/
def parseLines : List (List Char) → Option (List (List Char × List Char))
  | [] => some []
  | line :: rest =>
    match parseLine line with
    | none => none
    | some kv =>
      match parseLines rest with
      | none => none
      | some kvs => some (kv :: kvs)

/-- Models yaml.safe_load restricted to flat mappings of plain scalars
kept verbatim: split into lines, drop blank lines, parse each
"key: value" line; a non-mapping line fails the parse (exception), a fully
blank input yields the empty mapping (Python None, falsy). The real
yaml.safe_load additionally resolves typed scalars (yes/no/true/false/
on/off to bool, empty to None, digit strings to numbers, timestamps) and
keeps only the last occurrence of a duplicated key; the model is faithful
to the program on scalars in the verbatim domain delimited by wfKey/wfVal
below, and theorems about byte-level round trips are scoped by wfPairs to
that domain. -/
def parseYaml (cs : List Char) : Option (List (List Char × List Char)) :=
  parseLines ((pySplit [nlC] cs).filter (fun l => !l.isEmpty))

/-- Order on mapping entries by key, the order PyYAML sorts keys in. -/
def keyLe (a b : List Char × List Char) : Prop := a.1 ≤ b.1

instance : DecidableRel keyLe := fun a b => inferInstanceAs (Decidable (a.1 ≤ b.1))

instance : IsTotal (List Char × List Char) keyLe := ⟨fun a b => le_total a.1 b.1⟩

instance : IsTrans (List Char × List Char) keyLe := ⟨fun _ _ _ h1 h2 => le_trans h1 h2⟩

/-- Sort mapping entries by key, as yaml.dump does (sort_keys defaults to
True in PyYAML). -/
def sortPairs (fm : List (List Char × List Char)) : List (List Char × List Char) :=
  fm.insertionSort keyLe

/-- Serialize one mapping entry to a "key: value" line with trailing newline. -/
def dumpLine (kv : List Char × List Char) : List Char :=
  kv.1 ++ colonSpace ++ kv.2 ++ [nlC]

/-- Models yaml.dump(mapping, default_flow_style=False): one "key: value"
line per entry, keys sorted (sort_keys defaults to True). The real
yaml.dump additionally normalizes typed scalar values (True -> true,
None -> null), quotes or escapes irregular strings and wraps long lines at
spaces; on mappings whose scalars are in the verbatim domain of
wfKey/wfVal below (no spaces, no typed words, plain characters only) it
writes exactly these verbatim lines, and all byte-level claims are scoped
there. -/
def yamlDump (fm : List (List Char × List Char)) : List Char :=
  ((sortPairs fm).map dumpLine).flatten

/-- Key name github_hash. -/
def githubHashKey : List Char := ("github_hash").toList

/-- Embedding of sync_skill.update_frontmatter_hash: split the document on
every "---", require at least three parts, assign github_hash in the parsed
preamble, re-serialize with yaml.dump, and re-join every part from index 2
on with "---". -/
def update_frontmatter_hash (content new_hash : List Char) :
    Except (List Char) (List Char) :=
  if (pySplit dashesL content).length < 3 then .error ("Invalid format").toList
  else
    match parseYaml ((pySplit dashesL content).getD 1 []) with
    | none => .error ("yaml error").toList
    | some fm =>
      .ok (dashesL ++ [nlC] ++ yamlDump (dictUpdate fm [(githubHashKey, new_hash)]) ++
        dashesL ++ intercalateL dashesL ((pySplit dashesL content).drop 2))

/-- Embedding of parse_frontmatter (sync_skill.py): split on "---", fail with
fewer than three parts, otherwise yaml-parse the first delimited block. -/
def parse_frontmatter (content : List Char) :
    Except (List Char) (List (List Char × List Char)) :=
  if (pySplit dashesL content).length < 3 then
    .error ("Invalid SKILL.md format (missing frontmatter)").toList
  else
    match parseYaml ((pySplit dashesL content).getD 1 []) with
    | none => .error ("yaml error").toList
    | some fm => .ok fm



/-- Python s.startswith(p). -/
def pyStartsWith (s p : List Char) : Bool := p.isPrefixOf s

/-- Python s.endswith(p). -/
def pyEndsWith (s p : List Char) : Bool := p.isSuffixOf s

/-- Filesystem entry: a file with its byte content, or a directory with its
os.listdir view, a list of named entries (a real directory has uniquely
named entries; well-formedness is stated separately where needed). -/
inductive Entry where
  | file (content : List Char)
  | dir (entries : List (List Char × Entry))
deriving Repr

instance : Inhabited Entry := ⟨Entry.file []⟩

/-- The fixed ignore set of sync_skill.get_syncable_items. -/
def exclude_patterns : List (List Char) :=
  [(".git").toList, ("__pycache__").toList, (".DS_Store").toList,
   ("*.pyc").toList, (".gitignore").toList]

/-- The two continue guards of the get_syncable_items loop: skip a name that
is literally in the ignore set, skip a name starting with a dot. -/
def syncableItem (item : List Char) : Bool :=
  !(decide (item ∈ exclude_patterns)) && !(pyStartsWith item [('.')])

/-- Embedding of sync_skill.get_syncable_items: the names of the source
directory listing that pass both guards, in listing order. -/
def get_syncable_items (source_dir : List (List Char × Entry)) : List (List Char) :=
  (source_dir.map Prod.fst).filter syncableItem

/-- Branch name main. -/
def mainL : List Char := ("main").toList

/-- Branch name master. -/
def masterL : List Char := ("master").toList

/-- Ref prefix for a named branch. -/
def refsHeadsL : List Char := ("refs/heads/").toList

/-- The symbolic HEAD ref. -/
def headRefL : List Char := ("HEAD").toList

/-- Embedding of the candidate list in github_to_skill.get_repo_info:
[branch, main, master] unless the recorded branch is already main or
master, in which case [main, master]. -/
def branches_to_try (branch : List Char) : List (List Char) :=
  if branch ∉ [mainL, masterL] then [branch, mainL, masterL] else [mainL, masterL]

/-- One ls-remote fallback loop: query the oracle for each candidate ref in
order (some hash = usable output, none = failure, empty output or timeout),
return the first hash found together with the refs actually queried. -/
def resolveLoop (ls : List Char → Option (List Char)) :
    List (List Char) → Option (List Char) × List (List Char)
  | [] => (none, [])
  | r :: rs =>
    match ls r with
    | some h => (some h, [r])
    | none => ((resolveLoop ls rs).1, r :: (resolveLoop ls rs).2)

/-- Hash resolution of github_to_skill.get_repo_info: refs/heads/<b> for
each candidate of branches_to_try in order, stopping at the first usable
output; there is no fallback to HEAD in this resolver (latest_hash simply
stays unknown). -/
def get_repo_info_hash (ls : List Char → List Char → Option (List Char))
    (repo_url branch : List Char) : Option (List Char) × List (List Char) :=
  resolveLoop (ls repo_url) ((branches_to_try branch).map (fun b => refsHeadsL ++ b))

/-- Embedding of sync_skill.get_remote_hash: one attempt at
refs/heads/<branch>, then a fallback to HEAD; no other branch is tried. -/
def sync_get_remote_hash (ls : List Char → List Char → Option (List Char))
    (clone_url branch : List Char) : Option (List Char) × List (List Char) :=
  resolveLoop (ls clone_url) [refsHeadsL ++ branch, headRefL]

/-- Clone-url normalization of scan_and_check.get_remote_hash: cut at
/tree/ when present and append .git when missing. -/
def scan_clone_url (url : List Char) : List Char :=
  if (pySplit ("/tree/").toList url).length ≥ 2 then
    if pyEndsWith ((pySplit ("/tree/").toList url).headI) (".git").toList then
      (pySplit ("/tree/").toList url).headI
    else (pySplit ("/tree/").toList url).headI ++ (".git").toList
  else
    if pyEndsWith url (".git").toList then url else url ++ (".git").toList

/-- Embedding of scan_and_check.get_remote_hash: normalize the clone url,
then try refs/heads/main, refs/heads/master and finally HEAD; the skill's
recorded branch is ignored entirely. -/
def scan_get_remote_hash (ls : List Char → List Char → Option (List Char))
    (url : List Char) : Option (List Char) × List (List Char) :=
  resolveLoop (ls (scan_clone_url url)) [refsHeadsL ++ mainL, refsHeadsL ++ masterL, headRefL]

/-- Url prefix stripped by both locators. -/
def ghPrefixL : List Char := ("https://github.com/").toList

/-- Suffix .git. -/
def gitSuffixL : List Char := (".git").toList

/-- Separator /tree/. -/
def treeSepL : List Char := ("/tree/").toList

/-- Slash character. -/
def slashC : Char := '/'

/-- Result record of sync_skill.extract_repo_info. -/
structure RepoInfo where
  owner : List Char
  repo : List Char
  branch : List Char
  subpath : List Char
  clone_url : List Char
deriving Repr, DecidableEq

/-- Embedding of sync_skill.extract_repo_info: strip trailing slashes and a
.git suffix; with a /tree/ marker, owner/repo come from the part before the
marker, the segment after it is the branch and the rest the subpath;
without the marker the first two remaining path segments are owner/repo and
the branch defaults to main. Accessing a missing second segment raises
IndexError, modelled as Except.error. -/
def extract_repo_info (github_url : List Char) : Except (List Char) RepoInfo :=
  let url0 := rstripSlashes github_url
  let url := if pyEndsWith url0 gitSuffixL then url0.take (url0.length - 4) else url0
  if (pySplit treeSepL url).length ≥ 2 then
    let base := (pySplit treeSepL url).headI
    let rest := intercalateL treeSepL (pySplit treeSepL url).tail
    let branch := (pySplit [slashC] rest).headI
    let subpath := if (pySplit [slashC] rest).length ≥ 2 then
        intercalateL [slashC] (pySplit [slashC] rest).tail else []
    let base_parts := pySplit [slashC] (pyReplace base ghPrefixL [])
    if base_parts.length ≥ 2 then
      .ok ⟨base_parts.headI, base_parts.getD 1 [], branch, subpath,
        ghPrefixL ++ base_parts.headI ++ [slashC] ++ base_parts.getD 1 [] ++ gitSuffixL⟩
    else .error ("IndexError").toList
  else
    if (pySplit [slashC] (pyReplace url ghPrefixL [])).length ≥ 2 then
      .ok ⟨(pySplit [slashC] (pyReplace url ghPrefixL [])).headI,
        (pySplit [slashC] (pyReplace url ghPrefixL [])).getD 1 [], mainL, [],
        ghPrefixL ++ (pySplit [slashC] (pyReplace url ghPrefixL [])).headI ++ [slashC] ++
          (pySplit [slashC] (pyReplace url ghPrefixL [])).getD 1 [] ++ gitSuffixL⟩
    else .error ("IndexError").toList

/-- Hand-compiled matcher for the anchored regular expression of
github_to_skill.parse_github_url: the literal github prefix, one or more
non-slash characters (owner), a slash, one or more non-slash characters
(repo), the literal /tree/, one or more non-slash characters (branch), then
optionally a slash followed by one or more non-newline characters (the
greedy subdir group, stopping at a newline); trailing input after the match
is ignored, as re.match does not anchor the end. Returns
(group 1 = repo url, group 2 = branch, group 3 or empty = subdir). -/
def matchTreeUrl (cs : List Char) : Option (List Char × List Char × List Char) :=
  if ghPrefixL.isPrefixOf cs then
    let r0 := cs.drop ghPrefixL.length
    let owner := r0.takeWhile (fun c => c != slashC)
    let r1 := r0.dropWhile (fun c => c != slashC)
    if owner ≠ [] ∧ r1 ≠ [] then
      let repo := (r1.drop 1).takeWhile (fun c => c != slashC)
      let r3 := (r1.drop 1).dropWhile (fun c => c != slashC)
      if repo ≠ [] ∧ treeSepL.isPrefixOf r3 then
        let branch := (r3.drop treeSepL.length).takeWhile (fun c => c != slashC)
        let r5 := (r3.drop treeSepL.length).dropWhile (fun c => c != slashC)
        if branch ≠ [] then
          some (ghPrefixL ++ owner ++ [slashC] ++ repo, branch,
            if r5 ≠ [] ∧ (r5.drop 1).takeWhile (fun c => c != nlC) ≠ [] then
              (r5.drop 1).takeWhile (fun c => c != nlC)
            else [])
        else none
      else none
    else none
  else none

/-- Embedding of github_to_skill.parse_github_url: strip trailing slashes
and a .git suffix, then try the /tree/ pattern; on no match return the
cleaned url itself with empty subdir and branch main. Returns
(repo_url, subdir, branch). -/
def parse_github_url (url : List Char) : List Char × List Char × List Char :=
  match matchTreeUrl (if pyEndsWith (rstripSlashes url) gitSuffixL then
      (rstripSlashes url).take ((rstripSlashes url).length - 4) else rstripSlashes url) with
  | some (repo_url, branch, subdir) => (repo_url, subdir, branch)
  | none =>
    (if pyEndsWith (rstripSlashes url) gitSuffixL then
      (rstripSlashes url).take ((rstripSlashes url).length - 4) else rstripSlashes url,
     [], mainL)

/-- Decidable equality for Except results, used to evaluate the locator on
concrete urls. -/
instance {e a : Type} [DecidableEq e] [DecidableEq a] : DecidableEq (Except e a)
  | .error e1, .error e2 =>
    if h : e1 = e2 then isTrue (by rw [h]) else isFalse (fun hh => h (by injection hh))
  | .error _, .ok _ => isFalse (fun hh => Except.noConfusion hh)
  | .ok _, .error _ => isFalse (fun hh => Except.noConfusion hh)
  | .ok a1, .ok a2 =>
    if h : a1 = a2 then isTrue (by rw [h]) else isFalse (fun hh => h (by injection hh))

/-- Name lookup in a directory listing; models os.path.exists and the
isfile/isdir distinction on one path component. -/
def lookupEntry (entries : List (List Char × Entry)) (name : List Char) : Option Entry :=
  lookupL entries name

/-- File name SKILL.md. -/
def skillMdName : List Char := ("SKILL.md").toList

/-- Key name github_url. -/
def githubUrlKey : List Char := ("github_url").toList

/-- Key name name. -/
def nameKey : List Char := ("name").toList

/-- Key name version. -/
def versionKey : List Char := ("version").toList

/-- Record assembled by scan_and_check.scan_skills for one skill directory;
dir holds the subdirectory name (the root prefix of the joined path is a
constant and is omitted). -/
structure ScanRecord where
  name : List Char
  dir : List Char
  github_url : List Char
  local_hash : List Char
  local_version : List Char
deriving Repr, DecidableEq

/-- Embedding of scan_and_check.scan_skills: iterate the root's immediate
entries; skip non-directories, directories without a SKILL.md file (a
SKILL.md that is itself a directory raises on open, caught by the blanket
except), documents with fewer than three "---" parts, preambles that fail
to yaml-parse (exception suppressed), falsy preambles and preambles without
github_url; collect a record for every remaining subdirectory. -/
def scan_skills : List (List Char × Entry) → List ScanRecord
  | [] => []
  | (item, e) :: rest =>
    match e with
    | .file _ => scan_skills rest
    | .dir d =>
      match lookupEntry d skillMdName with
      | none => scan_skills rest
      | some (.dir _) => scan_skills rest
      | some (.file content) =>
        if (pySplit dashesL content).length < 3 then scan_skills rest
        else
          match parseYaml ((pySplit dashesL content).getD 1 []) with
          | none => scan_skills rest
          | some fm =>
            if fm ≠ [] ∧ (lookupL fm githubUrlKey).isSome then
              { name := (lookupL fm nameKey).getD item,
                dir := item,
                github_url := (lookupL fm githubUrlKey).getD [],
                local_hash := (lookupL fm githubHashKey).getD ("unknown").toList,
                local_version := (lookupL fm versionKey).getD ("0.0.0").toList } ::
                scan_skills rest
            else scan_skills rest

/-- Specification-side per-directory extraction: a record is produced
exactly for a subdirectory whose metadata document parses and whose
preamble carries a source URL; used to state that the scan loop returns
precisely these records. -/
def scanOne (item : List Char) (e : Entry) : Option ScanRecord :=
  match e with
  | .file _ => none
  | .dir d =>
    match lookupEntry d skillMdName with
    | none => none
    | some (.dir _) => none
    | some (.file content) =>
      if (pySplit dashesL content).length < 3 then none
      else
        match parseYaml ((pySplit dashesL content).getD 1 []) with
        | none => none
        | some fm =>
          if fm ≠ [] ∧ (lookupL fm githubUrlKey).isSome then
            some { name := (lookupL fm nameKey).getD item,
                   dir := item,
                   github_url := (lookupL fm githubUrlKey).getD [],
                   local_hash := (lookupL fm githubHashKey).getD ("unknown").toList,
                   local_version := (lookupL fm versionKey).getD ("0.0.0").toList }
          else none

/-- Per-skill fields written by the check_updates collection loop: the
resolved remote hash, a status classification and a message. -/
structure CheckedSkill where
  skill : ScanRecord
  remote_hash : Option (List Char)
  status : List Char
  message : List Char
deriving Repr, DecidableEq

/-- Status derivation of the check_updates loop body: error when the
resolver returned nothing, outdated when the resolved hash differs from
the recorded one, current otherwise. -/
def derive_status (sk : ScanRecord) (remote : Option (List Char)) : CheckedSkill :=
  match remote with
  | none => ⟨sk, none, ("error").toList, ("Could not reach remote").toList⟩
  | some h =>
    if h ≠ sk.local_hash then
      ⟨sk, some h, ("outdated").toList, ("New commits available").toList⟩
    else ⟨sk, some h, ("current").toList, ("Up to date").toList⟩

/-- Embedding of scan_and_check.check_updates: one resolution per record is
submitted to the five-worker pool; as_completed yields the futures in
completion order, modelled by the order list of input indices; each
completed future appends its own record with the status derived from its
own resolution. -/
def check_updates (skills : List ScanRecord) (resolve : List Char → Option (List Char))
    (order : List Nat) : List CheckedSkill :=
  order.filterMap (fun i =>
    (skills[i]?).map (fun sk => derive_status sk (resolve sk.github_url)))

/-- Summary block of the scan-and-check report. -/
structure ScanSummary where
  total : Nat
  outdated : Nat
  current : Nat
  errors : Nat
deriving Repr, DecidableEq

/-- Report emitted by scan_and_check.main. -/
structure ScanOutput where
  summary : ScanSummary
  skills : List CheckedSkill
deriving Repr, DecidableEq

/-- Embedding of scan_and_check.main: exit 1 only when the root directory
does not exist; an empty scan exits 0 with an empty report; otherwise every
record is checked and the summary counts are reported. -/
def scan_check_main (root : Option (List (List Char × Entry)))
    (resolve : List Char → Option (List Char)) (order : List Nat) :
    Except Nat ScanOutput :=
  match root with
  | none => .error 1
  | some r =>
    if scan_skills r = [] then .ok ⟨⟨0, 0, 0, 0⟩, []⟩
    else
      .ok ⟨⟨(check_updates (scan_skills r) resolve order).length,
            ((check_updates (scan_skills r) resolve order).filter
              (fun s => decide (s.status = ("outdated").toList))).length,
            ((check_updates (scan_skills r) resolve order).filter
              (fun s => decide (s.status = ("current").toList))).length,
            ((check_updates (scan_skills r) resolve order).filter
              (fun s => decide (s.status = ("error").toList))).length⟩,
           check_updates (scan_skills r) resolve order⟩

/-- One change entry emitted by the reconciler; action is create or update,
kind is file or directory, path is relative with / separators
(os.path.join). -/
structure Change where
  action : List Char
  kind : List Char
  path : List Char
deriving Repr, DecidableEq

/-- Prepend one change entry to the change list of a reconciler result
(state unchanged); on an exceptional result the list is lost, as in Python. -/
def prependChange (c : Change)
    (r : Except (List Char) (List Change) × List (List Char × Entry)) :
    Except (List Char) (List Change) × List (List Char × Entry) :=
  (r.1.map (fun l => c :: l), r.2)

/-- Prepend several change entries to the change list of a reconciler
result (state unchanged). -/
def prependChanges (cs : List Change)
    (r : Except (List Char) (List Change) × List (List Char × Entry)) :
    Except (List Char) (List Change) × List (List Char × Entry) :=
  (r.1.map (fun l => cs ++ l), r.2)

/-- The recursive sync_directory call whose target path names a file (a
source directory collides with a same-named target file): os.listdir still
lists the source, and os.path.exists(targetfile/item) is false for every
item, so each syncable item takes the create branch without recursing
further. The dry run appends one create entry per syncable item and raises
nothing; the live run raises NotADirectoryError at the first
shutil.copy2/copytree into the non-directory, and returns no changes
without raising when the source has no syncable items. The target file
itself is never touched. -/
def phantomSync : List (List Char × Entry) → Bool → Except (List Char) (List Change)
  | [], _ => .ok []
  | (item, e) :: rest, dry_run =>
    if syncableItem item then
      if dry_run then
        (phantomSync rest dry_run).map
          (fun l => (⟨("create").toList,
            (match e with
             | .file _ => ("file").toList
             | .dir _ => ("directory").toList), item⟩ : Change) :: l)
      else .error ("NotADirectoryError").toList
    else phantomSync rest dry_run

/-- Embedding of sync_skill.sync_directory: walk the syncable entries of
the source listing in order, threading the target directory state (the
live filesystem). A source file absent from the target is a create (copied
unless dry run); an identical file is skipped; a differing file is an
update (overwritten unless dry run); opening a same-named target directory
for the byte comparison raises IsADirectoryError in dry and live runs
alike (the open precedes the dry_run check). A source directory absent
from the target is a single create entry (whole subtree copied verbatim by
copytree unless dry run); a same-named target file recurses with a
non-directory target path, modelled by phantomSync above; a same-named
target directory recurses, threads the mutated subtree back in place and
prefixes the sub-changes with the entry name. An exception propagates
immediately: the change list is lost while mutations already applied
persist. -/
def sync_directory : List (List Char × Entry) → List (List Char × Entry) → Bool →
    Except (List Char) (List Change) × List (List Char × Entry)
  | [], tgt, _ => (.ok [], tgt)
  | (item, e) :: rest, tgt, dry_run =>
    if syncableItem item then
      match e with
      | .file c =>
        match lookupEntry tgt item with
        | some (.file c2) =>
          if c = c2 then sync_directory rest tgt dry_run
          else
            prependChange ⟨("update").toList, ("file").toList, item⟩
              (sync_directory rest (if dry_run then tgt else setPair tgt item (.file c))
                dry_run)
        | some (.dir _) => (.error ("IsADirectoryError").toList, tgt)
        | none =>
          prependChange ⟨("create").toList, ("file").toList, item⟩
            (sync_directory rest (if dry_run then tgt else setPair tgt item (.file c))
              dry_run)
      | .dir d =>
        match lookupEntry tgt item with
        | none =>
          prependChange ⟨("create").toList, ("directory").toList, item⟩
            (sync_directory rest (if dry_run then tgt else setPair tgt item (.dir d))
              dry_run)
        | some (.file _) =>
          match phantomSync d dry_run with
          | .error msg => (.error msg, tgt)
          | .ok sub =>
            prependChanges
              (sub.map (fun ch => ⟨ch.action, ch.kind, item ++ [slashC] ++ ch.path⟩))
              (sync_directory rest tgt dry_run)
        | some (.dir td) =>
          match sync_directory d td dry_run with
          | (.error msg, td2) => (.error msg, setPair tgt item (.dir td2))
          | (.ok sub, td2) =>
            prependChanges
              (sub.map (fun ch => ⟨ch.action, ch.kind, item ++ [slashC] ++ ch.path⟩))
              (sync_directory rest (setPair tgt item (.dir td2)) dry_run)
    else
      sync_directory rest tgt dry_run

/-- Well-formedness of a filesystem entry: every directory level, also in
nested subtrees, lists uniquely named entries (true of any real
filesystem). -/
def wfEntry : Entry → Bool
  | .file _ => true
  | .dir [] => true
  | .dir ((n, e) :: rest) =>
    !(decide (n ∈ rest.map Prod.fst)) && wfEntry e && wfEntry (.dir rest)

/-- Well-formedness of a directory listing. -/
def wfDir (d : List (List Char × Entry)) : Bool := wfEntry (.dir d)

/-- Command-line flags of sync_skill.main. -/
structure SyncArgs where
  dry_run : Bool
  backup : Bool
deriving Repr, DecidableEq

/-- Observable events of one sync_skill.main run, in program order:
the backup copytree, tempfile.mkdtemp, the git clone subprocess, the
sync_directory call, the SKILL.md rewrite, and the shutil.rmtree cleanup
of the staging directory. -/
inductive Ev where
  | backupCall
  | mkdtemp
  | cloneCall
  | syncRun
  | writeSkillMd
  | rmtree
deriving Repr, DecidableEq

/-- Final outcome of a sync_skill.main run: sys.exit with a code (normal
completion is exit 0), or an uncaught Python exception unwinding out of
main (after the finally block runs). -/
inductive MainOutcome where
  | exited (code : Nat)
  | crashed (msg : List Char)
deriving Repr, DecidableEq

/-- Multi-component path lookup inside a directory tree; models
os.path.exists and the subsequent listing of os.path.join(base, subpath). -/
def lookupPath : List (List Char) → List (List Char × Entry) → Option Entry
  | [], d => some (.dir d)
  | s :: rest, d =>
    match lookupEntry d s with
    | none => none
    | some (.file c) => if rest = [] then some (.file c) else none
    | some (.dir d2) => lookupPath rest d2

/-- The part of sync_skill.main from tempfile.mkdtemp on, wrapped in
try/finally: clone into staging (exit 1 on failure), select the
reconciliation source (the subpath inside the staging checkout when
recorded, exit 1 when missing; a file at that path makes os.listdir raise,
and the exception unwinds through the finally), reconcile into the live
skill directory, and rewrite the github_hash in SKILL.md unless dry run
(a rewrite failure is only a warning). The finally block always appends
the rmtree of the staging directory, on success, sys.exit and exception
paths alike. -/
def sync_main_body (args : SyncArgs)
    (gitClone : List Char → List Char → Option (List (List Char × Entry)))
    (info : RepoInfo) (remote_hash : List Char)
    (skillDir : List (List Char × Entry)) :
    MainOutcome × List Ev × List (List Char × Entry) :=
  match gitClone info.clone_url info.branch with
  | none => (.exited 1, [Ev.mkdtemp, Ev.cloneCall, Ev.rmtree], skillDir)
  | some staging =>
    match (if info.subpath = [] then some (Entry.dir staging)
           else lookupPath (pySplit [slashC] info.subpath) staging) with
    | none => (.exited 1, [Ev.mkdtemp, Ev.cloneCall, Ev.rmtree], skillDir)
    | some (.file _) =>
      (.crashed ("NotADirectoryError").toList,
       [Ev.mkdtemp, Ev.cloneCall, Ev.syncRun, Ev.rmtree], skillDir)
    | some (.dir srcTree) =>
      match sync_directory srcTree skillDir args.dry_run with
      | (.error msg, skill2) =>
        (.crashed msg, [Ev.mkdtemp, Ev.cloneCall, Ev.syncRun, Ev.rmtree], skill2)
      | (.ok _, skill2) =>
        if args.dry_run then
          (.exited 0, [Ev.mkdtemp, Ev.cloneCall, Ev.syncRun, Ev.rmtree], skill2)
        else
          match lookupEntry skill2 skillMdName with
          | some (.file c2) =>
            match update_frontmatter_hash c2 remote_hash with
            | .ok newC =>
              (.exited 0,
               [Ev.mkdtemp, Ev.cloneCall, Ev.syncRun, Ev.writeSkillMd, Ev.rmtree],
               setPair skill2 skillMdName (.file newC))
            | .error _ =>
              (.exited 0, [Ev.mkdtemp, Ev.cloneCall, Ev.syncRun, Ev.rmtree], skill2)
          | _ =>
            (.exited 0, [Ev.mkdtemp, Ev.cloneCall, Ev.syncRun, Ev.rmtree], skill2)

/-- Embedding of sync_skill.main after argument parsing. External effects
are oracles: ls is git ls-remote (clone url, ref argument), gitClone the
shallow clone (some checkout tree, or none for a non-zero exit), backupOk
the copytree backup outcome (the backup is written next to the skill
directory, not inside it); skillDir is the skill directory tree, none when
the directory itself is missing. The guard chain mirrors the source:
missing directory, missing or unreadable or unparseable SKILL.md, missing
or falsy github_url each exit 1 before any resource is created; an
IndexError from extract_repo_info is uncaught; an unresolvable or falsy
remote hash exits 1; an equal hash exits 0 before any mutation; then the
optional backup, and the staging body above. Returns the outcome, the
event trace and the final skill directory tree. -/
def sync_main (args : SyncArgs)
    (ls : List Char → List Char → Option (List Char))
    (gitClone : List Char → List Char → Option (List (List Char × Entry)))
    (backupOk : Bool)
    (skillDir? : Option (List (List Char × Entry))) :
    MainOutcome × List Ev × Option (List (List Char × Entry)) :=
  match skillDir? with
  | none => (.exited 1, [], none)
  | some skillDir =>
    match lookupEntry skillDir skillMdName with
    | none => (.exited 1, [], some skillDir)
    | some (.dir _) => (.exited 1, [], some skillDir)
    | some (.file content) =>
      match parse_frontmatter content with
      | .error _ => (.exited 1, [], some skillDir)
      | .ok fm =>
        match lookupL fm githubUrlKey with
        | none => (.exited 1, [], some skillDir)
        | some gurl =>
          if gurl = [] then (.exited 1, [], some skillDir)
          else
            match extract_repo_info gurl with
            | .error msg => (.crashed msg, [], some skillDir)
            | .ok info =>
              match (sync_get_remote_hash ls info.clone_url info.branch).1 with
              | none => (.exited 1, [], some skillDir)
              | some remote_hash =>
                if remote_hash = [] then (.exited 1, [], some skillDir)
                else
                  if (lookupL fm githubHashKey).getD ("unknown").toList = remote_hash then
                    (.exited 0, [], some skillDir)
                  else
                    if args.backup = true ∧ args.dry_run = false then
                      if backupOk then
                        ((sync_main_body args gitClone info remote_hash skillDir).1,
                         Ev.backupCall ::
                           (sync_main_body args gitClone info remote_hash skillDir).2.1,
                         some (sync_main_body args gitClone info remote_hash skillDir).2.2)
                      else (.exited 1, [Ev.backupCall], some skillDir)
                    else
                      ((sync_main_body args gitClone info remote_hash skillDir).1,
                       (sync_main_body args gitClone info remote_hash skillDir).2.1,
                       some (sync_main_body args gitClone info remote_hash skillDir).2.2)

/-! ### Lemmas and claim theorems -/

theorem lookupL_setPair_self {α β : Type} [DecidableEq α]
    (l : List (α × β)) (k : α) (v : β) : lookupL (setPair l k v) k = some v := by
  induction l with
  | nil => simp [setPair, lookupL]
  | cons hd tl ih =>
    obtain ⟨k0, v0⟩ := hd
    by_cases h : k0 = k
    · simp [setPair, h, lookupL]
    · simp [setPair, h, lookupL, ih]

theorem lookupL_setPair_ne {α β : Type} [DecidableEq α]
    (l : List (α × β)) (k k' : α) (v : β) (h : k' ≠ k) :
    lookupL (setPair l k v) k' = lookupL l k' := by
  induction l with
  | nil =>
    simp only [setPair, lookupL]
    rw [if_neg (Ne.symm h)]
  | cons hd tl ih =>
    obtain ⟨k0, v0⟩ := hd
    simp only [setPair]
    by_cases h0 : k0 = k
    · subst h0
      rw [if_pos rfl]
      simp only [lookupL]
      rw [if_neg (Ne.symm h), if_neg (Ne.symm h)]
    · rw [if_neg h0]
      simp only [lookupL]
      by_cases h1 : k0 = k'
      · rw [if_pos h1, if_pos h1]
      · rw [if_neg h1, if_neg h1]
        exact ih

theorem mem_keys_setPair {α β : Type} [DecidableEq α]
    (l : List (α × β)) (k k' : α) (v : β)
    (h : k' ∈ (setPair l k v).map Prod.fst) :
    k' = k ∨ k' ∈ l.map Prod.fst := by
  induction l with
  | nil =>
    simp only [setPair, List.map_cons, List.map_nil, List.mem_singleton] at h
    exact Or.inl h
  | cons hd tl ih =>
    obtain ⟨k0, v0⟩ := hd
    simp only [setPair] at h
    by_cases h0 : k0 = k
    · rw [if_pos h0] at h
      simp only [List.map_cons, List.mem_cons] at h
      rcases h with h | h
      · exact Or.inl h
      · exact Or.inr (by simp [h])
    · rw [if_neg h0] at h
      simp only [List.map_cons, List.mem_cons] at h
      rcases h with h | h
      · exact Or.inr (by simp [h])
      · rcases ih h with h1 | h1
        · exact Or.inl h1
        · exact Or.inr (by simp [h1])

theorem lookupL_dictUpdate_not_mem {α β : Type} [DecidableEq α]
    (e u : List (α × β)) (k : α) (h : k ∉ u.map Prod.fst) :
    lookupL (dictUpdate e u) k = lookupL e k := by
  induction u generalizing e with
  | nil => rfl
  | cons hd tu ih =>
    obtain ⟨k0, v0⟩ := hd
    simp only [List.map_cons, List.mem_cons] at h
    push_neg at h
    show lookupL (dictUpdate (setPair e k0 v0) tu) k = lookupL e k
    rw [ih (setPair e k0 v0) h.2]
    exact lookupL_setPair_ne e k0 k v0 h.1

theorem lookupL_dictUpdate_mem {α β : Type} [DecidableEq α]
    (e u : List (α × β)) (k : α) (v : β)
    (hnd : (u.map Prod.fst).Nodup) (h : (k, v) ∈ u) :
    lookupL (dictUpdate e u) k = some v := by
  induction u generalizing e with
  | nil => cases h
  | cons hd tu ih =>
    obtain ⟨k0, v0⟩ := hd
    simp only [List.map_cons, List.nodup_cons] at hnd
    rcases List.mem_cons.mp h with h1 | h1
    · have hk : k = k0 := congrArg Prod.fst h1
      have hv : v = v0 := congrArg Prod.snd h1
      subst hk
      subst hv
      show lookupL (dictUpdate (setPair e k v) tu) k = some v
      have hkn : k ∉ tu.map Prod.fst := hnd.1
      rw [lookupL_dictUpdate_not_mem (setPair e k v) tu k hkn]
      exact lookupL_setPair_self e k v
    · exact ih (setPair e k0 v0) hnd.2 h1

theorem mem_keys_dictUpdate {α β : Type} [DecidableEq α]
    (e u : List (α × β)) (k : α) (h : k ∈ (dictUpdate e u).map Prod.fst) :
    k ∈ e.map Prod.fst ∨ k ∈ u.map Prod.fst := by
  induction u generalizing e with
  | nil => exact Or.inl h
  | cons hd tu ih =>
    obtain ⟨k0, v0⟩ := hd
    show k ∈ e.map Prod.fst ∨ k ∈ ((k0, v0) :: tu).map Prod.fst
    have h' : k ∈ (dictUpdate (setPair e k0 v0) tu).map Prod.fst := h
    rcases ih (setPair e k0 v0) h' with h1 | h1
    · rcases mem_keys_setPair e k0 k v0 h1 with h2 | h2
      · exact Or.inr (by simp [h2])
      · exact Or.inl h2
    · exact Or.inr (by simp [h1])

theorem splitOnFuelAux_eq (sep : List Char) :
    ∀ (fuel : Nat) (cs acc : List Char), cs.length ≤ fuel →
      splitOnFuelAux sep fuel cs acc = splitOnAux sep cs acc := by
  intro fuel
  induction fuel with
  | zero =>
    intro cs acc h
    have : cs = [] := List.length_eq_zero.mp (Nat.le_zero.mp h)
    subst this
    simp [splitOnFuelAux, splitOnAux]
  | succ fuel ih =>
    intro cs acc h
    cases cs with
    | nil => simp [splitOnFuelAux, splitOnAux]
    | cons c rest =>
      by_cases hcond : sep ≠ [] ∧ sep.isPrefixOf (c :: rest)
      · rw [splitOnFuelAux, if_pos hcond, splitOnAux, dif_pos hcond]
        congr 1
        apply ih
        have hsep : 0 < sep.length := List.length_pos.mpr hcond.1
        simp only [List.length_drop, List.length_cons]
        simp only [List.length_cons] at h
        omega
      · rw [splitOnFuelAux, if_neg hcond, splitOnAux, dif_neg hcond]
        apply ih
        simp only [List.length_cons] at h
        omega

theorem pySplit_eq_aux (sep cs : List Char) :
    pySplit sep cs = splitOnAux sep cs [] :=
  splitOnFuelAux_eq sep cs.length cs [] (le_refl _)

theorem splitOnAux_no_head (s : Char) (ss : List Char) (x rest acc : List Char)
    (hx : ∀ c ∈ x, c ≠ s) :
    splitOnAux (s :: ss) (x ++ rest) acc = splitOnAux (s :: ss) rest (x.reverse ++ acc) := by
  induction x generalizing acc with
  | nil => simp
  | cons c x' ih =>
    have hc : c ≠ s := hx c (by simp)
    show splitOnAux (s :: ss) (c :: (x' ++ rest)) acc = _
    rw [splitOnAux, dif_neg]
    · rw [ih (c :: acc) (fun d hd => hx d (List.mem_cons_of_mem c hd))]
      congr 1
      simp
    · intro hcon
      have hp := List.isPrefixOf_iff_prefix.mp hcon.2
      rcases hp with ⟨t, ht⟩
      have : s = c := by
        have := congrArg (fun l => l.head?) ht
        simpa using this
      exact hc this.symm

theorem pySplit_no_sep (s : Char) (ss x : List Char) (hx : ∀ c ∈ x, c ≠ s) :
    pySplit (s :: ss) x = [x] := by
  rw [pySplit_eq_aux]
  have := splitOnAux_no_head s ss x [] [] hx
  rw [List.append_nil] at this
  rw [this]
  simp [splitOnAux]

/-- C5: the merged preamble mapping contains every key of the existing
mapping not in the update set with its original value, every key of the
update set with the update set's value, and no keys from anywhere else;
this is the dict.update merge used by update_frontmatter and
update_frontmatter_hash. -/
theorem c5_merge_semantics :
    (∀ (e u : List (List Char × List Char)) (k : List Char), k ∉ u.map Prod.fst →
      lookupL (dictUpdate e u) k = lookupL e k) ∧
    (∀ (e u : List (List Char × List Char)) (k v : List Char),
      (u.map Prod.fst).Nodup → (k, v) ∈ u → lookupL (dictUpdate e u) k = some v) ∧
    (∀ (e u : List (List Char × List Char)) (k : List Char),
      k ∈ (dictUpdate e u).map Prod.fst → k ∈ e.map Prod.fst ∨ k ∈ u.map Prod.fst) :=
  ⟨fun e u k h => lookupL_dictUpdate_not_mem e u k h,
   fun e u k v hnd h => lookupL_dictUpdate_mem e u k v hnd h,
   fun e u k h => mem_keys_dictUpdate e u k h⟩

/-- C5 witness: merge semantics evaluated on a concrete mapping and update set. -/
theorem c5_merge_semantics_witness :
    lookupL (dictUpdate [(("a").toList, ("1").toList), (("b").toList, ("2").toList)]
        [(("b").toList, ("9").toList)]) ("a").toList = some ("1").toList ∧
    lookupL (dictUpdate [(("a").toList, ("1").toList), (("b").toList, ("2").toList)]
        [(("b").toList, ("9").toList)]) ("b").toList = some ("9").toList ∧
    (("a").toList ∈ [(("a").toList, ("1").toList)].map Prod.fst ∨
      ("a").toList ∈ [(("b").toList, ("9").toList)].map Prod.fst) :=
  ⟨c5_merge_semantics.1 [(("a").toList, ("1").toList), (("b").toList, ("2").toList)]
      [(("b").toList, ("9").toList)] ("a").toList (by decide),
   c5_merge_semantics.2.1 [(("a").toList, ("1").toList), (("b").toList, ("2").toList)]
      [(("b").toList, ("9").toList)] ("b").toList ("9").toList (by decide) (by decide),
   c5_merge_semantics.2.2 [(("a").toList, ("1").toList)] [(("b").toList, ("9").toList)]
      ("a").toList (by decide)⟩

theorem resolveLoop_trace_front (ls : List Char → Option (List Char)) :
    ∀ cands : List (List Char), (resolveLoop ls cands).2 <+: cands := by
  intro cands
  induction cands with
  | nil => simp [resolveLoop]
  | cons r rs ih =>
    simp only [resolveLoop]
    cases h : ls r with
    | some v => exact ⟨rs, rfl⟩
    | none => exact List.cons_prefix_cons.mpr ⟨rfl, ih⟩

theorem resolveLoop_trace_nodup (ls : List Char → Option (List Char))
    (cands : List (List Char)) (h : cands.Nodup) : ((resolveLoop ls cands).2).Nodup :=
  List.Nodup.sublist (resolveLoop_trace_front ls cands).sublist h

theorem branches_to_try_nodup (b : List Char) : (branches_to_try b).Nodup := by
  unfold branches_to_try
  split
  · rename_i hnotin
    simp only [List.mem_cons, List.mem_singleton, List.not_mem_nil] at hnotin
    push_neg at hnotin
    simp only [List.nodup_cons, List.mem_cons, List.mem_singleton, List.not_mem_nil]
    refine ⟨?_, by decide⟩
    intro hc
    rcases hc with hc | hc | hc
    · exact hnotin.1 hc
    · exact hnotin.2.1 hc
    · cases hc
  · decide

/-- C3 (amended): within each single resolver no ref is queried twice, and
the repository-info resolver's candidate list contains the recorded branch
and both conventional defaults without duplicates; but only that resolver
follows the [branch, main, master] policy - see the counterexample for the
other two resolvers. -/
theorem c3_branch_candidates :
    (∀ b : List Char, b ∈ branches_to_try b ∧ mainL ∈ branches_to_try b ∧
      masterL ∈ branches_to_try b ∧ (branches_to_try b).Nodup ∧
      (branches_to_try b).length ≤ 3) ∧
    (∀ (ls : List Char → Option (List Char)) (cands : List (List Char)),
      cands.Nodup → ((resolveLoop ls cands).2).Nodup) ∧
    (∀ (ls : List Char → List Char → Option (List Char)) (cu b : List Char),
      ((get_repo_info_hash ls cu b).2).Nodup) ∧
    (∀ (ls : List Char → List Char → Option (List Char)) (cu b : List Char),
      ((sync_get_remote_hash ls cu b).2).Nodup) ∧
    (∀ (ls : List Char → List Char → Option (List Char)) (url : List Char),
      ((scan_get_remote_hash ls url).2).Nodup) := by
  refine ⟨?_, ?_, ?_, ?_, ?_⟩
  · intro b
    refine ⟨?_, ?_, ?_, branches_to_try_nodup b, ?_⟩
    · unfold branches_to_try
      split
      · simp
      · rename_i hin
        simp only [not_not] at hin
        exact hin
    · unfold branches_to_try
      split
      · simp
      · simp
    · unfold branches_to_try
      split
      · simp
      · simp
    · unfold branches_to_try
      split
      · simp
      · simp
  · exact fun ls cands h => resolveLoop_trace_nodup ls cands h
  · intro ls cu b
    apply resolveLoop_trace_nodup
    apply List.Nodup.map
    · intro x y hxy
      exact List.append_cancel_left hxy
    · exact branches_to_try_nodup b
  · intro ls cu b
    apply resolveLoop_trace_nodup
    simp only [List.nodup_cons, List.mem_singleton, List.not_mem_nil, and_true]
    constructor
    · intro hc
      have := congrArg List.length hc
      simp only [List.length_append] at this
      have h1 : refsHeadsL.length = 11 := by decide
      have h2 : headRefL.length = 4 := by decide
      omega
    · decide
  · intro ls url
    apply resolveLoop_trace_nodup
    decide

/-- C3 counterexample: for a recorded branch dev, the sync resolver queries
only refs/heads/dev and then HEAD (never refs/heads/main), and the scan
resolver queries main, master and HEAD while ignoring the recorded branch
entirely; this refutes the claim that every remote-reference resolution
tries the candidate sequence [recorded, main, master]. -/
theorem c3_candidates_counterexample :
    (sync_get_remote_hash (fun _ _ => none) ("u").toList ("dev").toList).2 =
      [("refs/heads/dev").toList, ("HEAD").toList] ∧
    refsHeadsL ++ mainL ∉
      (sync_get_remote_hash (fun _ _ => none) ("u").toList ("dev").toList).2 ∧
    (scan_get_remote_hash (fun _ _ => none)
        ("https://github.com/o/r/tree/dev/sub").toList).2 =
      [("refs/heads/main").toList, ("refs/heads/master").toList, ("HEAD").toList] ∧
    refsHeadsL ++ ("dev").toList ∉
      (scan_get_remote_hash (fun _ _ => none)
        ("https://github.com/o/r/tree/dev/sub").toList).2 := by
  refine ⟨by decide, by decide, by decide, by decide⟩

/-- C3 witness: the amended properties evaluated at concrete inputs. -/
theorem c3_branch_candidates_witness :
    ((resolveLoop (fun _ => none) [mainL, masterL]).2).Nodup ∧
    ("dev").toList ∈ branches_to_try ("dev").toList :=
  ⟨c3_branch_candidates.2.1 (fun _ => none) [mainL, masterL] (by decide),
   (c3_branch_candidates.1 ("dev").toList).1⟩

theorem suffix_isPrefixOf_reverse (base p q : List Char) (h : base ++ p = q) :
    p.reverse.isPrefixOf q.reverse = true := by
  apply List.isPrefixOf_iff_prefix.mpr
  exact ⟨base.reverse, by rw [← List.reverse_append, h]⟩

/-- C10: the reconciler's item filter excludes every entry whose name starts
with a dot; a name with a .pyc extension (other than the literal name
*.pyc) that does not start with a dot is synced, so the *.pyc ignore-set
member matches only the literal name; the literal *.pyc is always excluded;
and the dot rule excludes names outside the named ignore set, so the
overall exclusion is strictly broader than the named set. -/
theorem c10_dotfile_and_pyc_filter :
    (∀ (src : List (List Char × Entry)) (n : List Char),
      n ∈ get_syncable_items src → pyStartsWith n [('.')] = false) ∧
    (∀ (src : List (List Char × Entry)) (base : List Char),
      base ≠ [] → base.headI ≠ '.' → base ≠ [('*')] →
      base ++ (".pyc").toList ∈ src.map Prod.fst →
      base ++ (".pyc").toList ∈ get_syncable_items src) ∧
    (∀ src : List (List Char × Entry), ("*.pyc").toList ∉ get_syncable_items src) ∧
    (∃ n : List Char, syncableItem n = false ∧ n ∉ exclude_patterns) := by
  refine ⟨?_, ?_, ?_, ?_⟩
  · intro src n hn
    have h2 := (List.mem_filter.mp hn).2
    simp only [syncableItem, Bool.and_eq_true, Bool.not_eq_true'] at h2
    exact h2.2
  · intro src base hb hbh hbs hmem
    apply List.mem_filter.mpr
    refine ⟨hmem, ?_⟩
    simp only [syncableItem, Bool.and_eq_true, Bool.not_eq_true']
    constructor
    · apply decide_eq_false
      intro hex
      simp only [exclude_patterns, List.mem_cons, List.mem_singleton,
        List.not_mem_nil, or_false] at hex
      rcases hex with hx | hx | hx | hx | hx
      · exact absurd (suffix_isPrefixOf_reverse base _ _ hx) (by decide)
      · exact absurd (suffix_isPrefixOf_reverse base _ _ hx) (by decide)
      · exact absurd (suffix_isPrefixOf_reverse base _ _ hx) (by decide)
      · have hx2 : base ++ (".pyc").toList = [('*')] ++ (".pyc").toList := hx
        have := (List.append_inj' hx2 rfl).1
        exact hbs this
      · exact absurd (suffix_isPrefixOf_reverse base _ _ hx) (by decide)
    · cases base with
      | nil => exact absurd rfl hb
      | cons c b2 =>
        simp only [List.headI] at hbh
        show ([('.')]).isPrefixOf (c :: (b2 ++ (".pyc").toList)) = false
        simp only [List.isPrefixOf, List.isPrefixOf_nil_left, Bool.and_true, beq_eq_false_iff_ne]
        exact fun hh => hbh hh.symm
  · intro src h
    have h2 := (List.mem_filter.mp h).2
    exact absurd h2 (by decide)
  · exact ⟨(".foo").toList, by decide, by decide⟩

/-- C10 witness: the filter properties at concrete directory listings. -/
theorem c10_filter_witness :
    pyStartsWith ("x").toList [('.')] = false ∧
    ("foo").toList ++ (".pyc").toList ∈
      get_syncable_items [(("foo").toList ++ (".pyc").toList, Entry.file [])] ∧
    ("*.pyc").toList ∉ get_syncable_items [(("*.pyc").toList, Entry.file [])] :=
  ⟨c10_dotfile_and_pyc_filter.1 [(("x").toList, Entry.file [])] ("x").toList (by decide),
   c10_dotfile_and_pyc_filter.2.1 [(("foo").toList ++ (".pyc").toList, Entry.file [])]
     ("foo").toList (by decide) (by decide) (by decide) (by decide),
   c10_dotfile_and_pyc_filter.2.2.1 [(("*.pyc").toList, Entry.file [])]⟩

set_option maxHeartbeats 1000000 in
/-- C6 (amended): whenever extract_repo_info succeeds its clone address ends
in the canonical .git suffix, and its only failure mode is the IndexError
raised when the owner/repo portion has fewer than two slash-separated
segments; totality fails (see the counterexample), and the sibling locator
parse_github_url is total but returns a repository address with any .git
suffix stripped. -/
theorem c6_locator_properties :
    (∀ (url : List Char) (info : RepoInfo), extract_repo_info url = .ok info →
      ∃ p : List Char, info.clone_url = p ++ gitSuffixL) ∧
    (∀ url : List Char, extract_repo_info url = .error ("IndexError").toList ∨
      ∃ info, extract_repo_info url = .ok info) := by
  constructor
  · intro url info h
    simp only [extract_repo_info] at h
    repeat' split at h
    all_goals
      first
        | (injection h with h2
           subst h2
           exact ⟨_, rfl⟩)
        | exact (Except.noConfusion h)
  · intro url
    simp only [extract_repo_info]
    repeat' split
    all_goals
      first
        | exact Or.inr ⟨_, rfl⟩
        | exact Or.inl rfl

/-- C6 counterexample: extract_repo_info raises IndexError on a github url
with a single path segment, refuting the no-failure-modes claim; and
parse_github_url returns the cleaned repository address without the .git
suffix, refuting the canonical-suffix claim for that locator. -/
theorem c6_locator_counterexample :
    extract_repo_info ("https://github.com/owner").toList =
      .error ("IndexError").toList ∧
    (parse_github_url ("https://github.com/a/b.git").toList).1 =
      ("https://github.com/a/b").toList ∧
    pyEndsWith (parse_github_url ("https://github.com/a/b.git").toList).1 gitSuffixL =
      false := by
  refine ⟨by decide, by decide, by decide⟩

/-- C6 witness: the suffix property holds on a concrete successful parse. -/
theorem c6_locator_witness :
    ∃ p : List Char,
      (RepoInfo.mk ("o").toList ("r").toList mainL []
        (ghPrefixL ++ ("o").toList ++ [slashC] ++ ("r").toList ++ gitSuffixL)).clone_url =
      p ++ gitSuffixL :=
  c6_locator_properties.1 ("https://github.com/o/r").toList
    (RepoInfo.mk ("o").toList ("r").toList mainL []
      (ghPrefixL ++ ("o").toList ++ [slashC] ++ ("r").toList ++ gitSuffixL)) (by decide)

theorem filterMap_range_getElem {α β : Type} (l : List α) (g : α → β) :
    (List.range l.length).filterMap (fun i => (l[i]?).map g) = l.map g := by
  induction l with
  | nil => rfl
  | cons a tl ih =>
    rw [List.length_cons, List.range_succ_eq_map, List.filterMap_cons, List.filterMap_map]
    have hcomp : ((fun i => ((a :: tl)[i]?).map g) ∘ Nat.succ) = (fun i => (tl[i]?).map g) := by
      funext i
      simp
    rw [hcomp, ih]
    simp

/-- C2 (amended): check_updates pairs each input record with exactly one
status derived from that record's own resolution - the output is a
permutation of the per-record statuses of the input sequence - but the
output order is the workers' completion order, not the input order. -/
theorem c2_check_updates_permutation
    (skills : List ScanRecord) (resolve : List Char → Option (List Char))
    (order : List Nat) (h : order.Perm (List.range skills.length)) :
    (check_updates skills resolve order).Perm
      (skills.map (fun sk => derive_status sk (resolve sk.github_url))) := by
  unfold check_updates
  have h1 := List.Perm.filterMap
    (fun i => (skills[i]?).map (fun sk => derive_status sk (resolve sk.github_url))) h
  rw [filterMap_range_getElem] at h1
  exact h1

/-- C2 witness: the permutation property at a concrete input sequence and a
concrete completion order. -/
theorem c2_check_updates_witness :
    (check_updates
      [⟨("a").toList, ("a").toList, ("ua").toList, ("h").toList, ("v").toList⟩,
       ⟨("b").toList, ("b").toList, ("ub").toList, ("h").toList, ("v").toList⟩]
      (fun _ => none) [1, 0]).Perm
      (([⟨("a").toList, ("a").toList, ("ua").toList, ("h").toList, ("v").toList⟩,
         ⟨("b").toList, ("b").toList, ("ub").toList, ("h").toList, ("v").toList⟩] :
        List ScanRecord).map (fun sk => derive_status sk ((fun _ => none) sk.github_url))) :=
  c2_check_updates_permutation
    [⟨("a").toList, ("a").toList, ("ua").toList, ("h").toList, ("v").toList⟩,
     ⟨("b").toList, ("b").toList, ("ub").toList, ("h").toList, ("v").toList⟩]
    (fun _ => none) [1, 0] (by decide)

/-- C2 counterexample: with two input records and completion order [1, 0]
(a permutation of the input indices), the first output record is the second
input record, refuting the claim that the i-th output corresponds to the
i-th input independently of completion order. -/
theorem c2_completion_order_counterexample :
    ([1, 0] : List Nat).Perm (List.range 2) ∧
    (check_updates
      [⟨("a").toList, ("a").toList, ("ua").toList, ("h").toList, ("v").toList⟩,
       ⟨("b").toList, ("b").toList, ("ub").toList, ("h").toList, ("v").toList⟩]
      (fun _ => none) [1, 0]).map (fun s => s.skill.name) ≠
      [("a").toList, ("b").toList] := by
  constructor
  · decide
  · decide

theorem scan_skills_cons (item : List Char) (e : Entry) (rest : List (List Char × Entry)) :
    scan_skills ((item, e) :: rest) =
      match scanOne item e with
      | none => scan_skills rest
      | some b => b :: scan_skills rest := by
  cases e with
  | file c => rfl
  | dir d =>
    cases hl : lookupEntry d skillMdName with
    | none => simp [scan_skills, scanOne, hl]
    | some e2 =>
      cases e2 with
      | dir d2 => simp [scan_skills, scanOne, hl]
      | file content =>
        by_cases h3 : (pySplit dashesL content).length < 3
        · simp [scan_skills, scanOne, hl, h3]
        · cases hy : parseYaml ((pySplit dashesL content)[1]?.getD []) with
          | none => simp [scan_skills, scanOne, hl, h3, hy]
          | some fm =>
            by_cases h5 : fm ≠ [] ∧ (lookupL fm githubUrlKey).isSome
            · simp [scan_skills, scanOne, hl, h3, hy, h5]
            · simp [scan_skills, scanOne, hl, h3, hy, h5]

/-- C9: the whole scan fails (exit 1) exactly when the root directory does
not exist; for every existing root it returns a report (per-skill parse
failures are suppressed), and the scan loop returns exactly the records of
subdirectories whose metadata document parses and carries a source URL. -/
theorem c9_scan_error_containment :
    (∀ (resolve : List Char → Option (List Char)) (order : List Nat),
      scan_check_main none resolve order = .error 1) ∧
    (∀ (r : List (List Char × Entry)) (resolve : List Char → Option (List Char))
      (order : List Nat), ∃ out, scan_check_main (some r) resolve order = .ok out) ∧
    (∀ r : List (List Char × Entry),
      scan_skills r = r.filterMap (fun p => scanOne p.1 p.2)) := by
  refine ⟨fun _ _ => rfl, ?_, ?_⟩
  · intro r resolve order
    by_cases h : scan_skills r = []
    · refine ⟨⟨⟨0, 0, 0, 0⟩, []⟩, ?_⟩
      simp only [scan_check_main, if_pos h]
    · refine ⟨⟨⟨(check_updates (scan_skills r) resolve order).length,
          ((check_updates (scan_skills r) resolve order).filter
            (fun s => decide (s.status = ("outdated").toList))).length,
          ((check_updates (scan_skills r) resolve order).filter
            (fun s => decide (s.status = ("current").toList))).length,
          ((check_updates (scan_skills r) resolve order).filter
            (fun s => decide (s.status = ("error").toList))).length⟩,
         check_updates (scan_skills r) resolve order⟩, ?_⟩
      simp only [scan_check_main, if_neg h]
  · intro r
    induction r with
    | nil => rfl
    | cons p rest ih =>
      obtain ⟨item, e⟩ := p
      simp only [List.filterMap_cons]
      rw [scan_skills_cons, ih]
      cases scanOne item e <;> rfl

theorem setPair_eq_self {α β : Type} [DecidableEq α] (l : List (α × β)) (k : α) (v : β)
    (h : lookupL l k = some v) : setPair l k v = l := by
  induction l with
  | nil => cases h
  | cons hd tl ih =>
    obtain ⟨k0, v0⟩ := hd
    by_cases h0 : k0 = k
    · subst h0
      simp only [lookupL, eq_self_iff_true, if_true, Option.some.injEq] at h
      simp [setPair, h]
    · simp only [lookupL, if_neg h0] at h
      simp only [setPair, if_neg h0]
      rw [ih h]

theorem sizeOf_rest_lt (item : List Char) (e : Entry) (rest : List (List Char × Entry)) :
    sizeOf rest < sizeOf ((item, e) :: rest) := by
  simp only [List.cons.sizeOf_spec, Prod.mk.sizeOf_spec]
  omega

theorem sizeOf_dir_lt (item : List Char) (d rest : List (List Char × Entry)) :
    sizeOf d < sizeOf ((item, Entry.dir d) :: rest) := by
  simp only [List.cons.sizeOf_spec, Prod.mk.sizeOf_spec, Entry.dir.sizeOf_spec]
  omega

theorem sync_directory_dry_state_aux :
    ∀ (n : Nat) (src tgt : List (List Char × Entry)), sizeOf src ≤ n →
      (sync_directory src tgt true).2 = tgt := by
  intro n
  induction n with
  | zero =>
    intro src tgt h
    cases src with
    | nil => simp [sync_directory]
    | cons hd tl =>
      exfalso
      have : 0 < sizeOf (hd :: tl) := by
        simp only [List.cons.sizeOf_spec]
        omega
      omega
  | succ n ih =>
    intro src tgt h
    match src with
    | [] => simp [sync_directory]
    | (item, e) :: rest =>
      have hrest : sizeOf rest ≤ n := by
        have h1 := sizeOf_rest_lt item e rest
        omega
      by_cases hs : syncableItem item = true
      · cases e with
        | file c =>
          cases hl : lookupEntry tgt item with
          | none =>
            simp only [sync_directory, hs, hl, if_true, prependChange, if_pos rfl]
            exact ih rest tgt hrest
          | some e2 =>
            cases e2 with
            | file c2 =>
              by_cases hc : c = c2
              · simp only [sync_directory, hs, hl, if_true, hc, if_pos rfl]
                exact ih rest tgt hrest
              · simp only [sync_directory, hs, hl, if_true, if_neg hc, prependChange,
                  if_pos rfl]
                exact ih rest tgt hrest
            | dir d2 =>
              simp [sync_directory, hs, hl]
        | dir d =>
          cases hl : lookupEntry tgt item with
          | none =>
            simp only [sync_directory, hs, hl, if_true, prependChange, if_pos rfl]
            exact ih rest tgt hrest
          | some e2 =>
            cases e2 with
            | file c2 =>
              cases hph : phantomSync d true with
              | error msg => simp [sync_directory, hs, hl, hph]
              | ok sub =>
                simp only [sync_directory, hs, hl, if_true, hph, prependChanges]
                exact ih rest tgt hrest
            | dir td =>
              have hd : sizeOf d ≤ n := by
                have h1 := sizeOf_dir_lt item d rest
                omega
              have hinner : (sync_directory d td true).2 = td := ih d td hd
              cases hres : sync_directory d td true with
              | mk res td2 =>
                rw [hres] at hinner
                simp only at hinner
                rw [hinner] at hres
                cases res with
                | error msg =>
                  simp only [sync_directory, hs, hl, if_true, hres]
                  exact setPair_eq_self tgt item (.dir td) hl
                | ok sub =>
                  simp only [sync_directory, hs, hl, if_true, hres, prependChanges]
                  rw [setPair_eq_self tgt item (.dir td) hl]
                  exact ih rest tgt hrest
      · have hs2 : syncableItem item = false := by
          cases hval : syncableItem item
          · rfl
          · exact absurd hval hs
        cases e <;>
          (simp only [sync_directory, hs2]
           simp only [Bool.false_eq_true, if_false]
           exact ih rest tgt hrest)

theorem sync_directory_dry_state (src tgt : List (List Char × Entry)) :
    (sync_directory src tgt true).2 = tgt :=
  sync_directory_dry_state_aux (sizeOf src) src tgt (le_refl _)

theorem wfDir_cons (item : List Char) (e : Entry) (rest : List (List Char × Entry))
    (h : wfDir ((item, e) :: rest) = true) :
    item ∉ rest.map Prod.fst ∧ wfEntry e = true ∧ wfDir rest = true := by
  simp only [wfDir, wfEntry, Bool.and_eq_true, Bool.not_eq_true',
    decide_eq_false_iff_not] at h
  exact ⟨h.1.1, h.1.2, h.2⟩

theorem lookup_setPair_agree (tgt : List (List Char × Entry)) (item : List Char) (e : Entry)
    (names : List (List Char)) (hni : item ∉ names) :
    ∀ name, name ∈ names → lookupEntry tgt name = lookupEntry (setPair tgt item e) name := by
  intro name hn
  have hne : name ≠ item := fun hh => hni (hh ▸ hn)
  show lookupL tgt name = lookupL (setPair tgt item e) name
  exact (lookupL_setPair_ne tgt item name e hne).symm

theorem agree_setPair (t1 t2 : List (List Char × Entry)) (item : List Char) (e : Entry)
    (names : List (List Char))
    (h : ∀ name, name ∈ names → lookupEntry t1 name = lookupEntry t2 name) :
    ∀ name, name ∈ names →
      lookupEntry (setPair t1 item e) name = lookupEntry (setPair t2 item e) name := by
  intro name hn
  by_cases hni : name = item
  · subst hni
    show lookupL (setPair t1 name e) name = lookupL (setPair t2 name e) name
    rw [lookupL_setPair_self, lookupL_setPair_self]
  · show lookupL (setPair t1 item e) name = lookupL (setPair t2 item e) name
    rw [lookupL_setPair_ne t1 item name e hni, lookupL_setPair_ne t2 item name e hni]
    exact h name hn

theorem sync_directory_agree_aux :
    ∀ (n : Nat) (src : List (List Char × Entry)), sizeOf src ≤ n →
    ∀ (t1 t2 : List (List Char × Entry)) (dry : Bool),
      (∀ name, name ∈ src.map Prod.fst → lookupEntry t1 name = lookupEntry t2 name) →
      (sync_directory src t1 dry).1 = (sync_directory src t2 dry).1 := by
  intro n
  induction n with
  | zero =>
    intro src hsize t1 t2 dry hagree
    cases src with
    | nil => simp [sync_directory]
    | cons hd tl =>
      exfalso
      have : 0 < sizeOf (hd :: tl) := by
        simp only [List.cons.sizeOf_spec]
        omega
      omega
  | succ n ih =>
    intro src hsize t1 t2 dry hagree
    match src with
    | [] => simp [sync_directory]
    | (item, e) :: rest =>
      have hrest : sizeOf rest ≤ n := by
        have := sizeOf_rest_lt item e rest
        omega
      have hragree : ∀ name, name ∈ rest.map Prod.fst →
          lookupEntry t1 name = lookupEntry t2 name := by
        intro name hn
        exact hagree name (by simp [hn])
      have hl12 : lookupEntry t1 item = lookupEntry t2 item := hagree item (by simp)
      by_cases hs : syncableItem item = true
      · cases e with
        | file c =>
          have hagree2 : ∀ name, name ∈ rest.map Prod.fst →
              lookupEntry (if dry then t1 else setPair t1 item (.file c)) name =
              lookupEntry (if dry then t2 else setPair t2 item (.file c)) name := by
            cases dry
            · simpa using agree_setPair t1 t2 item (.file c) _ hragree
            · simpa using hragree
          cases hl1 : lookupEntry t1 item with
          | none =>
            have hl2 : lookupEntry t2 item = none := by
              rw [← hl12]
              exact hl1
            simp only [sync_directory, hs, if_true, hl1, hl2, prependChange]
            rw [ih rest hrest _ _ dry hagree2]
          | some e2 =>
            cases e2 with
            | file c2 =>
              have hl2 : lookupEntry t2 item = some (.file c2) := by
                rw [← hl12]
                exact hl1
              by_cases hc : c = c2
              · simp only [sync_directory, hs, if_true, hl1, hl2, if_pos hc]
                exact ih rest hrest t1 t2 dry hragree
              · simp only [sync_directory, hs, if_true, hl1, hl2, if_neg hc, prependChange]
                rw [ih rest hrest _ _ dry hagree2]
            | dir d2 =>
              have hl2 : lookupEntry t2 item = some (.dir d2) := by
                rw [← hl12]
                exact hl1
              simp [sync_directory, hs, hl1, hl2]
        | dir d =>
          cases hl1 : lookupEntry t1 item with
          | none =>
            have hl2 : lookupEntry t2 item = none := by
              rw [← hl12]
              exact hl1
            have hagree2 : ∀ name, name ∈ rest.map Prod.fst →
                lookupEntry (if dry then t1 else setPair t1 item (.dir d)) name =
                lookupEntry (if dry then t2 else setPair t2 item (.dir d)) name := by
              cases dry
              · simpa using agree_setPair t1 t2 item (.dir d) _ hragree
              · simpa using hragree
            simp only [sync_directory, hs, if_true, hl1, hl2, prependChange]
            rw [ih rest hrest _ _ dry hagree2]
          | some e2 =>
            cases e2 with
            | file c2 =>
              have hl2 : lookupEntry t2 item = some (.file c2) := by
                rw [← hl12]
                exact hl1
              cases hph : phantomSync d dry with
              | error msg => simp [sync_directory, hs, hl1, hl2, hph]
              | ok sub =>
                simp only [sync_directory, hs, if_true, hl1, hl2, hph, prependChanges]
                rw [ih rest hrest t1 t2 dry hragree]
            | dir td =>
              have hl2 : lookupEntry t2 item = some (.dir td) := by
                rw [← hl12]
                exact hl1
              cases hres : sync_directory d td dry with
              | mk res td2 =>
                cases res with
                | error msg =>
                  simp [sync_directory, hs, hl1, hl2, hres]
                | ok sub =>
                  have hagree2 : ∀ name, name ∈ rest.map Prod.fst →
                      lookupEntry (setPair t1 item (.dir td2)) name =
                      lookupEntry (setPair t2 item (.dir td2)) name :=
                    agree_setPair t1 t2 item (.dir td2) _ hragree
                  simp only [sync_directory, hs, if_true, hl1, hl2, hres, prependChanges]
                  rw [ih rest hrest _ _ dry hagree2]
      · have hs2 : syncableItem item = false := by
          cases hval : syncableItem item
          · rfl
          · exact absurd hval hs
        cases e <;>
          (simp only [sync_directory, hs2]
           simp only [Bool.false_eq_true, if_false]
           exact ih rest hrest t1 t2 dry hragree)

theorem sync_directory_agree (src t1 t2 : List (List Char × Entry)) (dry : Bool)
    (h : ∀ name, name ∈ src.map Prod.fst → lookupEntry t1 name = lookupEntry t2 name) :
    (sync_directory src t1 dry).1 = (sync_directory src t2 dry).1 :=
  sync_directory_agree_aux (sizeOf src) src (le_refl _) t1 t2 dry h

theorem phantomSync_false_ok (d : List (List Char × Entry)) (sub : List Change)
    (h : phantomSync d false = .ok sub) :
    sub = [] ∧ phantomSync d true = .ok [] := by
  induction d with
  | nil =>
    simp only [phantomSync, Except.ok.injEq] at h
    exact ⟨h.symm, rfl⟩
  | cons hd tl ih =>
    obtain ⟨item, e⟩ := hd
    by_cases hs : syncableItem item = true
    · simp [phantomSync, hs] at h
    · have hs2 : syncableItem item = false := by
        cases hval : syncableItem item
        · rfl
        · exact absurd hval hs
      simp only [phantomSync, hs2, Bool.false_eq_true, if_false] at h ⊢
      exact ih h

theorem sync_directory_ok_changes_aux :
    ∀ (n : Nat) (src : List (List Char × Entry)), sizeOf src ≤ n → wfDir src = true →
    ∀ (tgt : List (List Char × Entry)) (l : List Change),
      (sync_directory src tgt false).1 = .ok l →
      (sync_directory src tgt true).1 = .ok l := by
  intro n
  induction n with
  | zero =>
    intro src hsize hwf tgt l hlive
    cases src with
    | nil =>
      simp only [sync_directory] at hlive ⊢
      exact hlive
    | cons hd tl =>
      exfalso
      have : 0 < sizeOf (hd :: tl) := by
        simp only [List.cons.sizeOf_spec]
        omega
      omega
  | succ n ih =>
    intro src hsize hwf tgt l hlive
    match src with
    | [] =>
      simp only [sync_directory] at hlive ⊢
      exact hlive
    | (item, e) :: rest =>
      have hrest : sizeOf rest ≤ n := by
        have := sizeOf_rest_lt item e rest
        omega
      obtain ⟨hni, hwe, hwr⟩ := wfDir_cons item e rest hwf
      by_cases hs : syncableItem item = true
      · cases e with
        | file c =>
          cases hl : lookupEntry tgt item with
          | none =>
            simp only [sync_directory, hs, if_true, hl, prependChange,
              Bool.false_eq_true, if_false] at hlive
            simp only [sync_directory, hs, if_true, hl, prependChange, if_pos rfl]
            cases hr : (sync_directory rest (setPair tgt item (Entry.file c)) false).1 with
            | error msg =>
              rw [hr] at hlive
              exact absurd hlive (by simp [Except.map])
            | ok l2 =>
              rw [hr] at hlive
              have hl2 : (sync_directory rest tgt false).1 = .ok l2 := by
                rw [sync_directory_agree rest tgt (setPair tgt item (Entry.file c)) false
                  (lookup_setPair_agree tgt item (Entry.file c) _ hni)]
                exact hr
              rw [ih rest hrest hwr tgt l2 hl2]
              exact hlive
          | some e2 =>
            cases e2 with
            | file c2 =>
              by_cases hc : c = c2
              · simp only [sync_directory, hs, if_true, hl, if_pos hc] at hlive ⊢
                exact ih rest hrest hwr tgt l hlive
              · simp only [sync_directory, hs, if_true, hl, if_neg hc, prependChange,
                  Bool.false_eq_true, if_false] at hlive
                simp only [sync_directory, hs, if_true, hl, if_neg hc, prependChange,
                  if_pos rfl]
                cases hr : (sync_directory rest (setPair tgt item (Entry.file c)) false).1 with
                | error msg =>
                  rw [hr] at hlive
                  exact absurd hlive (by simp [Except.map])
                | ok l2 =>
                  rw [hr] at hlive
                  have hl2 : (sync_directory rest tgt false).1 = .ok l2 := by
                    rw [sync_directory_agree rest tgt (setPair tgt item (Entry.file c)) false
                      (lookup_setPair_agree tgt item (Entry.file c) _ hni)]
                    exact hr
                  rw [ih rest hrest hwr tgt l2 hl2]
                  exact hlive
            | dir d2 =>
              simp [sync_directory, hs, hl] at hlive
        | dir d =>
          cases hl : lookupEntry tgt item with
          | none =>
            simp only [sync_directory, hs, if_true, hl, prependChange,
              Bool.false_eq_true, if_false] at hlive
            simp only [sync_directory, hs, if_true, hl, prependChange, if_pos rfl]
            cases hr : (sync_directory rest (setPair tgt item (Entry.dir d)) false).1 with
            | error msg =>
              rw [hr] at hlive
              exact absurd hlive (by simp [Except.map])
            | ok l2 =>
              rw [hr] at hlive
              have hl2 : (sync_directory rest tgt false).1 = .ok l2 := by
                rw [sync_directory_agree rest tgt (setPair tgt item (Entry.dir d)) false
                  (lookup_setPair_agree tgt item (Entry.dir d) _ hni)]
                exact hr
              rw [ih rest hrest hwr tgt l2 hl2]
              exact hlive
          | some e2 =>
            cases e2 with
            | file c2 =>
              cases hph : phantomSync d false with
              | error msg =>
                simp [sync_directory, hs, hl, hph] at hlive
              | ok sub =>
                obtain ⟨hsub, hph1⟩ := phantomSync_false_ok d sub hph
                subst hsub
                simp only [sync_directory, hs, if_true, hl, hph, prependChanges,
                  List.map_nil] at hlive
                simp only [sync_directory, hs, if_true, hl, hph1, prependChanges,
                  List.map_nil]
                cases hr : (sync_directory rest tgt false).1 with
                | error msg =>
                  rw [hr] at hlive
                  exact absurd hlive (by simp [Except.map])
                | ok l2 =>
                  rw [hr] at hlive
                  rw [ih rest hrest hwr tgt l2 hr]
                  exact hlive
            | dir td =>
              cases hresF : sync_directory d td false with
              | mk resF tdF =>
                cases resF with
                | error msg =>
                  simp [sync_directory, hs, hl, hresF] at hlive
                | ok subF =>
                  have hdn : sizeOf d ≤ n := by
                    have := sizeOf_dir_lt item d rest
                    omega
                  have hwd : wfDir d = true := hwe
                  have hinner : (sync_directory d td true).1 = .ok subF := by
                    apply ih d hdn hwd td subF
                    rw [hresF]
                  have hstate : (sync_directory d td true).2 = td :=
                    sync_directory_dry_state d td
                  cases hresT : sync_directory d td true with
                  | mk resT tdT =>
                    rw [hresT] at hinner hstate
                    simp only at hinner hstate
                    subst hinner
                    rw [hstate] at hresT
                    simp only [sync_directory, hs, if_true, hl, hresF, prependChanges,
                      Bool.false_eq_true, if_false] at hlive
                    simp only [sync_directory, hs, if_true, hl, hresT, prependChanges,
                      if_pos rfl]
                    rw [setPair_eq_self tgt item (Entry.dir td) hl]
                    cases hr : (sync_directory rest (setPair tgt item (Entry.dir tdF)) false).1 with
                    | error msg =>
                      rw [hr] at hlive
                      exact absurd hlive (by simp [Except.map])
                    | ok l2 =>
                      rw [hr] at hlive
                      have hl2 : (sync_directory rest tgt false).1 = .ok l2 := by
                        rw [sync_directory_agree rest tgt (setPair tgt item (Entry.dir tdF))
                          false (lookup_setPair_agree tgt item (Entry.dir tdF) _ hni)]
                        exact hr
                      rw [ih rest hrest hwr tgt l2 hl2]
                      exact hlive
      · have hs2 : syncableItem item = false := by
          cases hval : syncableItem item
          · rfl
          · exact absurd hval hs
        cases e <;>
          (simp only [sync_directory, hs2, Bool.false_eq_true, if_false] at hlive ⊢
           exact ih rest hrest hwr tgt l hlive)

/-- C4 (amended): the dry run returns the target directory state
byte-identical to its pre-call state; and on every source tree with
uniquely named entries at every level (true of any real checkout), whenever
the live run completes without raising, the dry run reports the identical
change list. -/
theorem c4_dry_run_invariant :
    (∀ (src tgt : List (List Char × Entry)), (sync_directory src tgt true).2 = tgt) ∧
    (∀ (src tgt : List (List Char × Entry)) (l : List Change), wfDir src = true →
      (sync_directory src tgt false).1 = .ok l →
      (sync_directory src tgt true).1 = .ok l) :=
  ⟨fun src tgt => sync_directory_dry_state src tgt,
   fun src tgt l hwf hlive =>
     sync_directory_ok_changes_aux (sizeOf src) src (le_refl _) hwf tgt l hlive⟩

/-- C4 witness: on a concrete source tree and empty target the live run
creates one file and reports one change, and the dry run reports the same
change while leaving the target empty. -/
theorem c4_dry_run_invariant_witness :
    (sync_directory [(("a").toList, Entry.file ("X").toList)]
      [(("d").toList, Entry.dir [])] true).2 = [(("d").toList, Entry.dir [])] ∧
    (sync_directory [(("a").toList, Entry.file ("X").toList)]
      [(("d").toList, Entry.dir [])] true).1 =
      .ok [⟨("create").toList, ("file").toList, ("a").toList⟩] :=
  ⟨c4_dry_run_invariant.1 [(("a").toList, Entry.file ("X").toList)]
    [(("d").toList, Entry.dir [])],
   c4_dry_run_invariant.2 [(("a").toList, Entry.file ("X").toList)]
    [(("d").toList, Entry.dir [])]
    [⟨("create").toList, ("file").toList, ("a").toList⟩]
    (by simp [wfDir, wfEntry])
    (by
      have ha : syncableItem ("a").toList = true := by decide
      have hla : lookupEntry [(("d").toList, Entry.dir [])] ("a").toList = none := rfl
      simp only [sync_directory, ha, hla, eq_self_iff_true, if_true,
        Bool.false_eq_true, if_false, prependChange]
      decide)⟩

/-- C4 counterexample: a source directory colliding with a same-named
target file. The dry run reports a create entry for the file inside it and
raises nothing, while the live run raises NotADirectoryError at the copy
into the non-directory path, so the dry run does not produce the identical
change list as the live run on every input, refuting the original claim. -/
theorem c4_dry_run_counterexample :
    (sync_directory [(("d").toList, Entry.dir [(("f").toList, Entry.file ("X").toList)])]
      [(("d").toList, Entry.file ("Y").toList)] true).1 =
      .ok [⟨("create").toList, ("file").toList, ("d/f").toList⟩] ∧
    (sync_directory [(("d").toList, Entry.dir [(("f").toList, Entry.file ("X").toList)])]
      [(("d").toList, Entry.file ("Y").toList)] false).1 =
      .error ("NotADirectoryError").toList := by
  have hd : syncableItem ("d").toList = true := by decide
  have hl : lookupEntry [(("d").toList, Entry.file ("Y").toList)] ("d").toList =
      some (Entry.file ("Y").toList) := rfl
  constructor
  · have hph : phantomSync [(("f").toList, Entry.file ("X").toList)] true =
        .ok [⟨("create").toList, ("file").toList, ("f").toList⟩] := by decide
    simp only [sync_directory, hd, hl, hph, eq_self_iff_true, if_true,
      Bool.false_eq_true, if_false, prependChanges]
    decide
  · have hph : phantomSync [(("f").toList, Entry.file ("X").toList)] false =
        .error ("NotADirectoryError").toList := by decide
    simp only [sync_directory, hd, hl, hph, eq_self_iff_true, if_true,
      Bool.false_eq_true, if_false]

/-- Every run of the staging body releases the staging directory: the rmtree
event of the finally block occurs on all of its exit paths. -/
theorem sync_main_body_rmtree (args : SyncArgs)
    (gitClone : List Char → List Char → Option (List (List Char × Entry)))
    (info : RepoInfo) (remote_hash : List Char)
    (skillDir : List (List Char × Entry)) :
    Ev.rmtree ∈ (sync_main_body args gitClone info remote_hash skillDir).2.1 := by
  unfold sync_main_body
  repeat' split
  all_goals simp

/-- C7: on every execution path of sync_skill.main that reaches the creation
of the staging directory (tempfile.mkdtemp) — success, clone failure,
missing subpath, reconciliation error, or metadata-rewrite failure — the
staging directory is released (shutil.rmtree in the finally block) before
the call returns. -/
theorem c7_staging_cleanup (args : SyncArgs)
    (ls : List Char → List Char → Option (List Char))
    (gitClone : List Char → List Char → Option (List (List Char × Entry)))
    (backupOk : Bool) (skillDir? : Option (List (List Char × Entry))) :
    Ev.mkdtemp ∈ (sync_main args ls gitClone backupOk skillDir?).2.1 →
    Ev.rmtree ∈ (sync_main args ls gitClone backupOk skillDir?).2.1 := by
  unfold sync_main
  repeat' split
  all_goals first
    | exact fun _ => sync_main_body_rmtree _ _ _ _ _
    | exact fun _ => List.mem_cons_of_mem _ (sync_main_body_rmtree _ _ _ _ _)
    | (intro h; simp at h)

/-- C7 witness: a concrete run whose clone fails after the staging directory
was created; mkdtemp is in the trace and so is rmtree. -/
theorem c7_staging_cleanup_witness :
    Ev.mkdtemp ∈ (sync_main ⟨false, false⟩
      (fun _ _ => some ("abc123").toList) (fun _ _ => none) true
      (some [(skillMdName,
        Entry.file ("---\ngithub_url: https://github.com/o/r\n---\nbody").toList)])).2.1 ∧
    Ev.rmtree ∈ (sync_main ⟨false, false⟩
      (fun _ _ => some ("abc123").toList) (fun _ _ => none) true
      (some [(skillMdName,
        Entry.file ("---\ngithub_url: https://github.com/o/r\n---\nbody").toList)])).2.1 :=
  ⟨by decide, c7_staging_cleanup _ _ _ _ _ (by decide)⟩

/-- When the clone subprocess fails, the staging body exits 1 after the
finally-block cleanup and returns the skill directory unchanged. -/
theorem sync_main_body_clone_fail (args : SyncArgs)
    (gitClone : List Char → List Char → Option (List (List Char × Entry)))
    (info : RepoInfo) (remote_hash : List Char)
    (skillDir : List (List Char × Entry))
    (h : gitClone info.clone_url info.branch = none) :
    sync_main_body args gitClone info remote_hash skillDir =
      (MainOutcome.exited 1, [Ev.mkdtemp, Ev.cloneCall, Ev.rmtree], skillDir) := by
  unfold sync_main_body
  rw [h]

/-- When the recorded subpath is missing from the staging checkout, the
staging body exits 1 after cleanup and returns the skill directory
unchanged. -/
theorem sync_main_body_subpath_missing (args : SyncArgs)
    (gitClone : List Char → List Char → Option (List (List Char × Entry)))
    (info : RepoInfo) (remote_hash : List Char)
    (skillDir staging : List (List Char × Entry))
    (h1 : gitClone info.clone_url info.branch = some staging)
    (h2 : info.subpath ≠ [])
    (h3 : lookupPath (pySplit [slashC] info.subpath) staging = none) :
    sync_main_body args gitClone info remote_hash skillDir =
      (MainOutcome.exited 1, [Ev.mkdtemp, Ev.cloneCall, Ev.rmtree], skillDir) := by
  unfold sync_main_body
  simp only [h1, if_neg h2, h3]

/-- C8: for every sync invocation that passes the pre-flight guards (the
skill directory and SKILL.md exist, the frontmatter parses with a non-empty
github_url, the remote hash resolves to a non-empty value different from the
recorded local hash), any failure occurring before the first mutation of the
skill directory — a backup failure, a clone failure, or a recorded subpath
missing from the staging checkout — makes main exit 1 and leaves the skill
directory tree byte-identical to its pre-call state. -/
theorem c8_premutation_failure_atomicity (args : SyncArgs)
    (ls : List Char → List Char → Option (List Char))
    (gitClone : List Char → List Char → Option (List (List Char × Entry)))
    (backupOk : Bool)
    (sd : List (List Char × Entry)) (content : List Char)
    (fm : List (List Char × List Char)) (gurl : List Char)
    (info : RepoInfo) (rh : List Char)
    (hmd : lookupEntry sd skillMdName = some (Entry.file content))
    (hfm : parse_frontmatter content = Except.ok fm)
    (hurl : lookupL fm githubUrlKey = some gurl)
    (hge : gurl ≠ [])
    (hinfo : extract_repo_info gurl = Except.ok info)
    (hrh : (sync_get_remote_hash ls info.clone_url info.branch).1 = some rh)
    (hre : rh ≠ [])
    (hstale : (lookupL fm githubHashKey).getD (("unknown").toList) ≠ rh)
    (hfail :
      (args.backup = true ∧ args.dry_run = false ∧ backupOk = false) ∨
      ((args.backup = true ∧ args.dry_run = false → backupOk = true) ∧
        gitClone info.clone_url info.branch = none) ∨
      ((args.backup = true ∧ args.dry_run = false → backupOk = true) ∧
        ∃ staging, gitClone info.clone_url info.branch = some staging ∧
          info.subpath ≠ [] ∧
          lookupPath (pySplit [slashC] info.subpath) staging = none)) :
    (sync_main args ls gitClone backupOk (some sd)).1 = MainOutcome.exited 1 ∧
    (sync_main args ls gitClone backupOk (some sd)).2.2 = some sd := by
  unfold sync_main
  simp only [hmd, hfm, hurl, hinfo, hrh]
  rw [if_neg hge, if_neg hre, if_neg hstale]
  rcases hfail with ⟨hb, hd, hk⟩ | ⟨himp, hclone⟩ | ⟨himp, staging, hcl, hsub, hlp⟩
  · rw [if_pos ⟨hb, hd⟩, hk]
    exact ⟨rfl, rfl⟩
  · by_cases hbd : args.backup = true ∧ args.dry_run = false
    · rw [if_pos hbd, himp hbd,
        sync_main_body_clone_fail args gitClone info rh sd hclone]
      exact ⟨rfl, rfl⟩
    · rw [if_neg hbd,
        sync_main_body_clone_fail args gitClone info rh sd hclone]
      exact ⟨rfl, rfl⟩
  · by_cases hbd : args.backup = true ∧ args.dry_run = false
    · rw [if_pos hbd, himp hbd,
        sync_main_body_subpath_missing args gitClone info rh sd staging hcl hsub hlp]
      exact ⟨rfl, rfl⟩
    · rw [if_neg hbd,
        sync_main_body_subpath_missing args gitClone info rh sd staging hcl hsub hlp]
      exact ⟨rfl, rfl⟩

/-- C8 witness: a concrete invocation with --backup whose backup copytree
fails; main exits 1 and the skill directory tree is unchanged. -/
theorem c8_premutation_failure_atomicity_witness :
    (sync_main ⟨false, true⟩ (fun _ _ => some (("abc123").toList)) (fun _ _ => none) false
      (some [(skillMdName,
        Entry.file ("---\ngithub_url: https://github.com/o/r\n---\nbody").toList)])).1 =
      MainOutcome.exited 1 ∧
    (sync_main ⟨false, true⟩ (fun _ _ => some (("abc123").toList)) (fun _ _ => none) false
      (some [(skillMdName,
        Entry.file ("---\ngithub_url: https://github.com/o/r\n---\nbody").toList)])).2.2 =
      some [(skillMdName,
        Entry.file ("---\ngithub_url: https://github.com/o/r\n---\nbody").toList)] :=
  c8_premutation_failure_atomicity ⟨false, true⟩
    (fun _ _ => some (("abc123").toList)) (fun _ _ => none) false
    [(skillMdName,
      Entry.file ("---\ngithub_url: https://github.com/o/r\n---\nbody").toList)]
    (("---\ngithub_url: https://github.com/o/r\n---\nbody").toList)
    [(("github_url").toList, ("https://github.com/o/r").toList)]
    (("https://github.com/o/r").toList)
    ⟨("o").toList, ("r").toList, ("main").toList, [], ("https://github.com/o/r.git").toList⟩
    (("abc123").toList)
    (by rfl) (by decide) (by decide) (by decide) (by decide) (by decide)
    (by decide) (by decide)
    (Or.inl ⟨rfl, rfl, rfl⟩)
